import Mathlib

/-!
Verification of the DuplicateNameHighlighter core against its specification.

The Python source is shallowly embedded:
* strings are `List Char` / `String`, machine ints are `Int`/`Nat`,
  floats appearing in exact arithmetic positions are `ℚ`;
* Python dicts keyed by strings are association lists with
  update-in-place / append-at-end semantics (matching insertion order);
* dict field access that can raise `KeyError` (dynamically shaped records
  flowing into `adjust_marker_positions`) is `Except Unit`;
* fallible collaborators (pHash, screenshot, OCR) are oracle inputs to the
  per-tick functions, so a tick is a pure state transition.
-/

namespace DNH



/-! ### Association lists (Python dict / SQLite row keyed by name)

`alookup` is first-match lookup; the stores below keep keys unique, so
first-match agrees with Python dict lookup. -/

def alookup (n : String) : List (String × α) → Option α
  | [] => none
  | (k, v) :: rest => if k = n then some v else alookup n rest

/-! ### Durable store: `utils/database.py` `NameDatabase`
(`tracker/database.py` `Database` has the same count semantics:
insert with `count = occurrences` when new, else increment by `occurrences`;
`get_count`/`get_name_count` return the stored count or 0). -/

abbrev Db := List (String × Nat)

/-- SQL `UPDATE ... SET count = g(count) WHERE name = n`. -/
def aupdate (n : String) (g : Nat → Nat) : List (String × Nat) → List (String × Nat)
  | [] => []
  | (k, v) :: rest =>
    if k = n then (k, g v) :: aupdate n g rest else (k, v) :: aupdate n g rest

/-- `add_name_occurrence(name, occurrences)`: if the name exists, UPDATE
`count = count + occurrences`; otherwise INSERT `(name, occurrences)`. -/
def addNameOccurrence (db : Db) (n : String) (occ : Nat) : Db :=
  match alookup n db with
  | some _ => aupdate n (fun c => c + occ) db
  | none => db ++ [(n, occ)]

/-- `get_count` / `get_name_count`: stored count, or 0 when absent. -/
def getNameCount (db : Db) (n : String) : Nat :=
  (alookup n db).getD 0

/-- `clear_all`: DELETE all records. -/
def dbClearAll : Db := []

/-- `get_statistics()['total_names']`: COUNT(*) of rows. -/
def dbTotalNames (db : Db) : Nat := db.length

/-- `get_statistics()['total_occurrences']`: SUM(count) over rows (0 if empty). -/
def dbTotalOccurrences (db : Db) : Nat := (db.map (·.2)).sum

/-! ### Name normalization: `core/duplicate_tracker.py` `normalize_name`

`name.lower().strip()`, then the three single-character OCR-confusion
replacements, then the filter to `{a-z, space, hyphen}`, then
`' '.join(normalized.split())`.  `lower` is embedded as ASCII
case-folding (the OCR whitelist in `ocr_processor.py` is ASCII-only). -/

/-- `str.lower()`, per character (ASCII A-Z → a-z). -/
def pyLowerChar (c : Char) : Char :=
  if 65 ≤ c.toNat ∧ c.toNat ≤ 90 then Char.ofNat (c.toNat + 32) else c

/-- Python `str.split()` / `str.strip()` whitespace. -/
def isPySpace (c : Char) : Bool :=
  c = ' ' ∨ c = '\t' ∨ c = '\n' ∨ c = '\x0d' ∨ c = '\x0b' ∨ c = '\x0c'

/-- The three replacements `'|'→'l'`, `'0'→'o'`, `'1'→'l'` (single-character
source and target, so the sequential `str.replace` calls act per character;
no replacement output is itself replaced later). -/
def replaceChar (c : Char) : Char :=
  if c = '|' then 'l' else if c = '0' then 'o' else if c = '1' then 'l' else c

/-- Membership in `set('abcdefghijklmnopqrstuvwxyz -')`. -/
def allowedChar (c : Char) : Bool :=
  (decide (97 ≤ c.toNat) && decide (c.toNat ≤ 122)) || c = ' ' || c = '-'

/-- `str.strip()`: drop leading and trailing whitespace. -/
def pyStrip (l : List Char) : List Char :=
  ((l.dropWhile isPySpace).reverse.dropWhile isPySpace).reverse

/-- `str.split()` (no argument): split on whitespace runs, no empty words.
`acc` holds the current word, reversed. -/
def pySplitAux : List Char → List Char → List (List Char)
  | [], acc => if acc.isEmpty then [] else [acc.reverse]
  | c :: rest, acc =>
    if isPySpace c then
      if acc.isEmpty then pySplitAux rest [] else acc.reverse :: pySplitAux rest []
    else
      pySplitAux rest (c :: acc)

def pySplit (l : List Char) : List (List Char) := pySplitAux l []

/-- `' '.join(words)`. -/
def joinSpace : List (List Char) → List Char
  | [] => []
  | [w] => w
  | w :: w' :: ws => w ++ ' ' :: joinSpace (w' :: ws)

def normalizeChars (l : List Char) : List Char :=
  joinSpace (pySplit (((pyStrip (l.map pyLowerChar)).map replaceChar).filter allowedChar))

/-- `DuplicateTracker.normalize_name`. -/
def normalize_name (s : String) : String := ⟨normalizeChars s.data⟩

/-! ### Core duplicate tracker: `core/duplicate_tracker.py`

`process_names` groups this tick's OCR records by normalized name
(insertion-ordered dict of position lists), then for each distinct name:
persists the position count, reads back the cumulative count, tests
`total_count > len(positions) or was_in_session`, and adds the name to the
session set. -/

/-- One OCR record handed to `process_names` (shape produced by
`OCRProcessor.extract_text_with_positions`). -/
structure NameData where
  name : String
  x : Int
  y : Int
  width : Int
  height : Int
  confidence : ℚ
deriving DecidableEq

/-- The position dict built for each record inside `process_names`. -/
structure Pos where
  x : Int
  y : Int
  width : Int
  height : Int
  confidence : ℚ
deriving DecidableEq

def posOf (d : NameData) : Pos :=
  ⟨d.x, d.y, d.width, d.height, d.confidence⟩

/-- One entry of the returned `duplicates` list. -/
structure DupEntry where
  name : String
  positions : List Pos
  count : Nat
  is_new_dup : Bool
deriving DecidableEq

/-- Append a position under its key in the insertion-ordered group dict. -/
def addToGroup : List (String × List Pos) → String → Pos → List (String × List Pos)
  | [], k, p => [(k, [p])]
  | (k', ps) :: rest, k, p =>
    if k' = k then (k', ps ++ [p]) :: rest else (k', ps) :: addToGroup rest k p

/-- `current_scan_names`: group the scan's records by normalized name,
keys in first-appearance order, positions in scan order. -/
def groupScan (l : List NameData) : List (String × List Pos) :=
  l.foldl (fun gs d => addToGroup gs (normalize_name d.name) (posOf d)) []

/-- In-memory state of the core `DuplicateTracker`: the session name set
and the durable store it writes through. -/
structure CoreTracker where
  session : List String
  db : Db
deriving DecidableEq

/-- The `for normalized_name, positions in current_scan_names.items()` loop. -/
def processLoop : List (String × List Pos) → List String → Db →
    List DupEntry × List String × Db
  | [], s, db => ([], s, db)
  | (n, ps) :: rest, s, db =>
    let db1 := addNameOccurrence db n ps.length
    let total := getNameCount db1 n
    let r := processLoop rest (s.insert n) db1
    (if total > ps.length ∨ n ∈ s then
        ⟨n, ps, total, ! decide (n ∈ s)⟩ :: r.1
      else r.1,
      r.2)

/-- `DuplicateTracker.process_names` (src/core/duplicate_tracker.py). -/
def process_names (st : CoreTracker) (l : List NameData) :
    List DupEntry × CoreTracker :=
  if l = [] then ([], st)
  else
    let r := processLoop (groupScan l) st.session st.db
    (r.1, ⟨r.2.1, r.2.2⟩)

def groupKeys (gs : List (String × List Pos)) : List String := gs.map (·.1)

/-! ### Session ledger: `tracker/duplicate_tracker.py` (final resolved side)

`process` increments a per-name session counter and persists one occurrence
per entry; `reset_session` clears only session state and pushes an empty
marker set to the overlay; `clear_all` additionally wipes the durable store.
The overlay's displayed markers are the `markers` field. -/

structure Ledger where
  sessionCounts : List (String × Nat)
  db : Db
  markers : List (Int × Int × Int × Int)
deriving DecidableEq

/-- Python `self.session_counts[name] = count` (update or insert last). -/
def sessionSet (sc : List (String × Nat)) (n : String) (v : Nat) :
    List (String × Nat) :=
  match alookup n sc with
  | some _ => aupdate n (fun _ => v) sc
  | none => sc ++ [(n, v)]

/-- `DuplicateTracker.process(results)`: per entry, session count += 1,
persist one occurrence, queue the box when the session count exceeds 1;
finally `overlay.update_markers(duplicate_boxes)`. -/
def ledgerProcess (st : Ledger) (results : List NameData) : Ledger :=
  let r := results.foldl
    (fun (acc : List (String × Nat) × Db × List (Int × Int × Int × Int)) e =>
      let count := (alookup e.name acc.1).getD 0 + 1
      (sessionSet acc.1 e.name count,
        addNameOccurrence acc.2.1 e.name 1,
        if count > 1 then acc.2.2 ++ [(e.x, e.y, e.width, e.height)] else acc.2.2))
    (st.sessionCounts, st.db, [])
  ⟨r.1, r.2.1, r.2.2⟩

/-- `reset_session`: clear session counts, clear markers, keep the store. -/
def reset_session (st : Ledger) : Ledger := ⟨[], st.db, []⟩

/-- `clear_all`: `reset_session()` then `database.clear_all()`. -/
def clear_all (st : Ledger) : Ledger :=
  let st1 := reset_session st
  ⟨st1.sessionCounts, dbClearAll, st1.markers⟩

structure Stats where
  session_names : Nat
  session_occurrences : Nat
  database_names : Nat
  database_occurrences : Nat
deriving DecidableEq

/-- `get_statistics`. -/
def get_statistics (st : Ledger) : Stats :=
  ⟨st.sessionCounts.length, (st.sessionCounts.map (·.2)).sum,
    dbTotalNames st.db, dbTotalOccurrences st.db⟩

/-- The §3 invariant: every session count is bounded by the durable count. -/
def SessionLeDb (st : Ledger) : Prop :=
  ∀ n, (alookup n st.sessionCounts).getD 0 ≤ getNameCount st.db n

/-! ### Change detector: `core/screen_capture.py` `_has_changed`

The perceptual hash is a bit vector; `imagehash` subtraction is the Hamming
distance.  The pHash computation is an oracle argument: `.ok h` when
`imagehash.phash(img)` returns `h`, `.error ()` when it raises. -/

abbrev Fingerprint := List Bool

/-- `current - self.last_hash`: Hamming distance of the hash bit arrays. -/
def hashDiff (a b : Fingerprint) : Nat :=
  ((a.zip b).filter (fun p => p.1 ≠ p.2)).length

/-- `_has_changed` as a transition on the stored `last_hash`: returns the
changed verdict and the new `last_hash`.  On a pHash exception the source
returns True and resets `last_hash = None`. -/
def pyHasChanged (lastHash : Option Fingerprint) (phash : Except Unit Fingerprint)
    (threshold : Nat) : Bool × Option Fingerprint :=
  match phash with
  | .error _ => (true, none)
  | .ok current =>
    match lastHash with
    | none => (true, some current)
    | some lh => (decide (hashDiff current lh > threshold), some current)

/-! ### Scroll tracker: `core/scroll_tracker.py`

Markers and OCR records are Python dicts; the keys a given dict actually
carries differ per call site (`x/y/width/height` for overlay markers,
`text/bbox` for the OCR records fed to `track_ocr_results`), so fields are
`Option` and dict access is `Except Unit` (KeyError). -/

structure ScrollInfo where
  direction : String
  magnitude : Int
  confidence : ℚ
deriving DecidableEq

structure Marker where
  x : Option Int
  y : Option Int
  width : Option Int
  height : Option Int
  text : Option String
  bbox : Option (List Int)
deriving DecidableEq

/-- Python dict subscript: the value, or KeyError. -/
def pyGet : Option α → Except Unit α
  | some v => .ok v
  | none => .error ()

/-- Body of the `adjust_marker_positions` loop for one marker: shift `y` by
the scroll direction, then keep the marker iff `y + height > -50`. -/
def adjustOne (m : Marker) (dir : String) (mag : Int) : Except Unit (Option Marker) :=
  match (if dir = "down" then
      match m.y with
      | some y => Except.ok {m with y := some (y - mag)}
      | none => Except.error ()
    else if dir = "up" then
      match m.y with
      | some y => Except.ok {m with y := some (y + mag)}
      | none => Except.error ()
    else Except.ok m : Except Unit Marker) with
  | .error e => .error e
  | .ok m' =>
    match m'.y, m'.height with
    | some y', some h => .ok (if y' + h > -50 then some m' else none)
    | _, _ => .error ()

def adjustList : List Marker → String → Int → Except Unit (List Marker)
  | [], _, _ => .ok []
  | m :: rest, dir, mag =>
    match adjustOne m dir mag with
    | .error e => .error e
    | .ok r =>
      match adjustList rest dir mag with
      | .error e => .error e
      | .ok rs => .ok (match r with | some m' => m' :: rs | none => rs)

/-- `ScrollTracker.adjust_marker_positions` (the `not scroll_info` early
return cannot fire here since a `ScrollInfo` value is always truthy). -/
def adjust_marker_positions (markers : List Marker) (s : ScrollInfo) :
    Except Unit (List Marker) :=
  if markers = [] then .ok markers
  else adjustList markers s.direction s.magnitude

/-- A marker dict carrying exactly the `x/y/width/height` keys. -/
def mkMarker (q : Int × Int × Int × Int) : Marker :=
  ⟨some q.1, some q.2.1, some q.2.2.1, some q.2.2.2, none, none⟩

/-- An OCR record dict carrying exactly the `text/bbox` keys (the shape the
repository's test suite feeds to `track_ocr_results`). -/
def mkOcr (t : String) (bbox : List Int) : Marker :=
  ⟨none, none, none, none, some t, some bbox⟩

/-- `{result['text']: result for result in rs}` — reads every `text` key;
later entries overwrite earlier ones (modelled by last-match lookup). -/
def buildTextPairs : List Marker → Except Unit (List (String × Marker))
  | [] => .ok []
  | r :: rest =>
    match r.text with
    | none => .error ()
    | some t =>
      match buildTextPairs rest with
      | .error e => .error e
      | .ok ps => .ok ((t, r) :: ps)

/-- Dict lookup with overwrite semantics: the last binding wins. -/
def dictLookupLast (ps : List (String × Marker)) (t : String) : Except Unit Marker :=
  match (ps.filter (fun p => p.1 = t)).getLast? with
  | some p => .ok p.2
  | none => .error ()

def dedupKeysAux : List String → List String → List String
  | [], _ => []
  | k :: rest, seen =>
    if k ∈ seen then dedupKeysAux rest seen else k :: dedupKeysAux rest (k :: seen)

/-- The dict's key set, as a duplicate-free list (iteration order of the
Python set does not matter: only the multiset of deltas feeds mean/std). -/
def dictKeys (ps : List (String × Marker)) : List String :=
  dedupKeysAux (ps.map (·.1)) []

/-- `result['bbox'][1]`: the y coordinate of a record's bounding box. -/
def bboxY (m : Marker) : Except Unit Int :=
  match m.bbox with
  | none => .error ()
  | some l =>
    match l.get? 1 with
    | some y => .ok y
    | none => .error ()

/-- `current_names[name]['bbox'][1] - last_names[name]['bbox'][1]`. -/
def yDiffFor (curPairs lastPairs : List (String × Marker)) (t : String) :
    Except Unit Int :=
  match dictLookupLast curPairs t with
  | .error e => .error e
  | .ok rc =>
    match dictLookupLast lastPairs t with
    | .error e => .error e
    | .ok rl =>
      match bboxY rc with
      | .error e => .error e
      | .ok yc =>
        match bboxY rl with
        | .error e => .error e
        | .ok yl => .ok (yc - yl)

def yDiffsList (ts : List String) (curPairs lastPairs : List (String × Marker)) :
    Except Unit (List Int) :=
  match ts with
  | [] => .ok []
  | t :: rest =>
    match yDiffFor curPairs lastPairs t with
    | .error e => .error e
    | .ok d =>
      match yDiffsList rest curPairs lastPairs with
      | .error e => .error e
      | .ok ds => .ok (d :: ds)

/-- `np.mean(y_diffs)` over exact rationals. -/
def ratMean (l : List Int) : ℚ :=
  (l.map (fun d => (d : ℚ))).sum / l.length

/-- `np.std(y_diffs)` squared (population variance); `std < 20` is compared
as `variance < 400`, which is equivalent since both sides are nonnegative. -/
def ratVar (l : List Int) : ℚ :=
  ((l.map (fun d => ((d : ℚ) - ratMean l) ^ 2)).sum) / l.length

/-- Python `int(...)`: truncation toward zero. -/
def ratTruncToZero (q : ℚ) : Int :=
  if 0 ≤ q then ⌊q⌋ else ⌈q⌉

/-- `ScrollTracker.track_ocr_results`, as a function of the cached
`last_ocr_results`, the current results and `scroll_threshold`; returns
`(adjusted_results, scroll_info, new last_ocr_results)`, or the uncaught
exception (`track_ocr_results` has no try/except). -/
def track_ocr_results (last cur : List Marker) (scrollThreshold : Int) :
    Except Unit (List Marker × Option ScrollInfo × List Marker) :=
  if last.isEmpty then .ok (cur, none, cur)
  else if 0 < cur.length ∧ 0 < last.length then
    match buildTextPairs cur with
    | .error e => .error e
    | .ok curPairs =>
      match buildTextPairs last with
      | .error e => .error e
      | .ok lastPairs =>
        let common := (dictKeys curPairs).filter (fun t => t ∈ dictKeys lastPairs)
        if 2 ≤ common.length then
          match yDiffsList common curPairs lastPairs with
          | .error e => .error e
          | .ok diffs =>
            if 2 ≤ diffs.length then
              if ratVar diffs < 400 then
                if |ratMean diffs| > (scrollThreshold : ℚ) then
                  let si : ScrollInfo :=
                    ⟨if 0 < ratMean diffs then "down" else "up",
                      |ratTruncToZero (ratMean diffs)|, 4 / 5⟩
                  match adjust_marker_positions cur si with
                  | .error e => .error e
                  | .ok adjusted => .ok (adjusted, some si, cur)
                else .ok (cur, none, cur)
              else .ok (cur, none, cur)
            else .ok (cur, none, cur)
        else .ok (cur, none, cur)
  else .ok (cur, none, cur)

/-! ### Per-tick orchestrators

`ScreenCapture.capture_and_process` (the final resolved version of
`core/screen_capture.py`) and the GUI scan worker `ScanWorker.run`
(`gui/main_window.py`).  Screen, pHash and OCR are oracle inputs;
the trace records which pipeline stages actually executed in the source:
`capture_and_process` contains no scroll-detection call, while
`ScanWorker.run` calls `detect_scroll` before the change gate. -/

abbrev Img := Nat

structure TickEnv where
  shot : Option Img
  phash : Except Unit Fingerprint
  ocrTexts : List NameData

structure CapState where
  region : Option (Int × Int × Int × Int)
  lastHash : Option Fingerprint
  hashThreshold : Nat
  ledger : Ledger
deriving DecidableEq

structure CapTrace where
  scrollDetectRan : Bool
  ocrRan : Bool
  processedNames : Bool
  clearedMarkers : Bool
deriving DecidableEq

/-- `_grab_region`: None for non-positive dimensions, else the (oracle)
screenshot outcome. -/
def grabRegion (r : Int × Int × Int × Int) (shot : Option Img) : Option Img :=
  if r.2.2.1 ≤ 0 ∨ r.2.2.2 ≤ 0 then none else shot

/-- `ScreenCapture.capture_and_process`: region check, grab, change gate,
then OCR + `tracker.process` (or `overlay.clear_markers()` on empty OCR).
No branch of the source calls any scroll detection. -/
def capture_and_process (st : CapState) (env : TickEnv) :
    Bool × CapState × CapTrace :=
  match st.region with
  | none => (false, st, ⟨false, false, false, false⟩)
  | some r =>
    match grabRegion r env.shot with
    | none => (false, st, ⟨false, false, false, false⟩)
    | some _ =>
      let v := pyHasChanged st.lastHash env.phash st.hashThreshold
      let st' : CapState := ⟨st.region, v.2, st.hashThreshold, st.ledger⟩
      if v.1 = false then (false, st', ⟨false, false, false, false⟩)
      else if env.ocrTexts ≠ [] then
        (true,
          ⟨st'.region, st'.lastHash, st'.hashThreshold,
            ledgerProcess st'.ledger env.ocrTexts⟩,
          ⟨false, true, true, false⟩)
      else
        (false,
          ⟨st'.region, st'.lastHash, st'.hashThreshold,
            ⟨st'.ledger.sessionCounts, st'.ledger.db, []⟩⟩,
          ⟨false, true, false, true⟩)

structure WorkerEnv where
  shot : Option Img
  scroll : Option ScrollInfo
  changed : Bool
  ocrTexts : List NameData
deriving DecidableEq

structure WorkerTrace where
  scrollDetectRan : Bool
  scrollEmitted : Bool
  ocrRan : Bool
  scanEmitted : Bool
  errorEmitted : Bool
deriving DecidableEq

/-- `ScanWorker.run`: capture, then `detect_scroll` unconditionally (its
result emitted when confidence exceeds 0.8), then the `has_changed` gate,
which skips only the OCR call and the scan-completed emission. -/
def scanWorkerRun (env : WorkerEnv) : WorkerTrace :=
  match env.shot with
  | none => ⟨false, false, false, false, true⟩
  | some _ =>
    let semit := match env.scroll with
      | some si => decide ((4 : ℚ) / 5 < si.confidence)
      | none => false
    if env.changed = false then ⟨true, semit, false, false, false⟩
    else ⟨true, semit, true, true, false⟩

/-! ### Normalization structure lemmas (for idempotence) -/

/-- A word produced by `split()` on a filtered string: nonempty, all
characters in the allowed alphabet and none of them whitespace. -/
def goodWord (w : List Char) : Prop :=
  w ≠ [] ∧ ∀ c ∈ w, allowedChar c = true ∧ isPySpace c = false

/-! ### Theorems -/

theorem alookup_aupdate_self (n : String) (g : Nat → Nat) :
    ∀ db : List (String × Nat),
      alookup n (aupdate n g db) = (alookup n db).map g
  | [] => rfl
  | (k, v) :: rest => by
    by_cases h : k = n
    · subst h
      simp [aupdate, alookup]
    · simp [aupdate, alookup, h, alookup_aupdate_self n g rest]

theorem alookup_aupdate_ne (m n : String) (g : Nat → Nat) (h : m ≠ n) :
    ∀ db : List (String × Nat),
      alookup m (aupdate n g db) = alookup m db
  | [] => rfl
  | (k, v) :: rest => by
    by_cases hk : k = n
    · subst hk
      have hkm : ¬ k = m := fun hh => h (hh ▸ rfl)
      simp [aupdate, alookup, hkm, alookup_aupdate_ne m k g h rest]
    · by_cases hm : k = m
      · subst hm
        simp [aupdate, alookup, hk]
      · simp [aupdate, alookup, hk, hm, alookup_aupdate_ne m n g h rest]

theorem alookup_append_single (m n : String) (v : Nat) :
    ∀ db : List (String × Nat),
      alookup m (db ++ [(n, v)])
        = ((alookup m db).orElse (fun _ => if n = m then some v else none))
  | [] => by simp [alookup]
  | (k, w) :: rest => by
    by_cases hk : k = m
    · simp [alookup, hk, Option.orElse]
    · simp [alookup, hk, alookup_append_single m n v rest]

theorem getNameCount_add_self (db : Db) (n : String) (occ : Nat) :
    getNameCount (addNameOccurrence db n occ) n = getNameCount db n + occ := by
  unfold addNameOccurrence getNameCount
  cases h : alookup n db with
  | none =>
    show (alookup n (db ++ [(n, occ)])).getD 0 = _
    rw [alookup_append_single n n occ db, h]
    simp [Option.orElse]
  | some c =>
    show (alookup n (aupdate n (fun x => x + occ) db)).getD 0 = _
    rw [alookup_aupdate_self n (fun x => x + occ) db, h]
    rfl

theorem getNameCount_add_ne (db : Db) (m n : String) (occ : Nat) (h : m ≠ n) :
    getNameCount (addNameOccurrence db n occ) m = getNameCount db m := by
  unfold addNameOccurrence getNameCount
  cases hn : alookup n db with
  | none =>
    show (alookup m (db ++ [(n, occ)])).getD 0 = _
    rw [alookup_append_single m n occ db]
    have hnm : (if n = m then some occ else none) = (none : Option Nat) := by
      have : ¬ n = m := fun hh => h hh.symm
      simp [this]
    cases hm : alookup m db <;> simp [Option.orElse, hnm]
  | some c =>
    show (alookup m (aupdate n (fun x => x + occ) db)).getD 0 = _
    rw [alookup_aupdate_ne m n (fun x => x + occ) h db]

theorem groupKeys_addToGroup (k : String) (p : Pos) :
    ∀ gs, groupKeys (addToGroup gs k p)
      = if k ∈ groupKeys gs then groupKeys gs else groupKeys gs ++ [k]
  | [] => by simp [addToGroup, groupKeys]
  | (k', ps) :: rest => by
    by_cases h : k' = k
    · subst h
      simp [addToGroup, groupKeys]
    · have h2 : ¬ k = k' := fun hh => h hh.symm
      simp only [addToGroup, if_neg h, groupKeys, List.map_cons, List.mem_cons]
      by_cases hm : k ∈ groupKeys rest
      · simp only [groupKeys] at hm
        have := groupKeys_addToGroup k p rest
        simp only [groupKeys] at this
        simp [h2, hm, this]
      · simp only [groupKeys] at hm
        have := groupKeys_addToGroup k p rest
        simp only [groupKeys] at this
        simp [h2, hm, this]

theorem nodup_groupKeys_addToGroup (k : String) (p : Pos) (gs : List (String × List Pos))
    (h : (groupKeys gs).Nodup) : (groupKeys (addToGroup gs k p)).Nodup := by
  rw [groupKeys_addToGroup]
  by_cases hm : k ∈ groupKeys gs
  · simpa [hm]
  · simp only [if_neg hm]
    simpa [List.nodup_append] using ⟨h, hm⟩

theorem nodup_groupKeys_foldl :
    ∀ (l : List NameData) (gs : List (String × List Pos)), (groupKeys gs).Nodup →
      (groupKeys (l.foldl (fun gs d => addToGroup gs (normalize_name d.name) (posOf d)) gs)).Nodup
  | [], gs, h => h
  | d :: rest, gs, h => by
    exact nodup_groupKeys_foldl rest _ (nodup_groupKeys_addToGroup _ _ gs h)

theorem nodup_groupKeys_groupScan (l : List NameData) : (groupKeys (groupScan l)).Nodup :=
  nodup_groupKeys_foldl l [] (by simp [groupKeys])

/-- Every emitted duplicate entry's name is a key of the processed groups. -/
theorem processLoop_names_sub :
    ∀ (gs : List (String × List Pos)) (s : List String) (db : Db),
      ∀ e ∈ (processLoop gs s db).1, e.name ∈ groupKeys gs
  | [], s, db => by simp [processLoop]
  | (n, ps) :: rest, s, db => by
    intro e he
    simp only [processLoop] at he
    by_cases hc : getNameCount (addNameOccurrence db n ps.length) n > ps.length ∨ n ∈ s
    · rw [if_pos hc] at he
      rcases List.mem_cons.mp he with h | h
      · subst h
        simp [groupKeys]
      · exact List.mem_cons_of_mem _ (processLoop_names_sub rest _ _ e h)
    · rw [if_neg hc] at he
      exact List.mem_cons_of_mem _ (processLoop_names_sub rest _ _ e he)

/-- Per-name behaviour of the processing loop, relative to the state at the
start of the tick: a grouped name is emitted as a duplicate iff it was in the
session set before the tick, or its durable count before the tick was
positive; each emitted entry carries the updated durable cumulative count
(pre-tick count plus this tick's position count) and this tick's positions. -/
theorem processLoop_spec (n : String) (ps : List Pos) :
    ∀ (gs : List (String × List Pos)) (s : List String) (db : Db),
      (groupKeys gs).Nodup → (n, ps) ∈ gs →
        ((∃ e ∈ (processLoop gs s db).1, e.name = n) ↔ (n ∈ s ∨ 0 < getNameCount db n))
        ∧ ∀ e ∈ (processLoop gs s db).1, e.name = n →
            e.count = getNameCount db n + ps.length ∧ e.positions = ps := by
  intro gs
  induction gs with
  | nil => intro s db _ hmem; cases hmem
  | cons head rest ih =>
    obtain ⟨k, qs⟩ := head
    intro s db hnodup hmem
    have hnd1 : (groupKeys rest).Nodup := (List.nodup_cons.mp hnodup).2
    have hknotin : k ∉ groupKeys rest := (List.nodup_cons.mp hnodup).1
    rcases List.mem_cons.mp hmem with hhd | htl
    · -- the searched name is the head group
      have hk : n = k := congrArg Prod.fst hhd
      have hq : ps = qs := congrArg Prod.snd hhd
      subst hk
      subst hq
      have htotal : getNameCount (addNameOccurrence db n ps.length) n
          = getNameCount db n + ps.length := getNameCount_add_self db n ps.length
      have hnone : ∀ e ∈ (processLoop rest (s.insert n)
          (addNameOccurrence db n ps.length)).1, e.name ≠ n := by
        intro e he hn
        exact hknotin (hn ▸ processLoop_names_sub rest _ _ e he)
      simp only [processLoop, htotal]
      by_cases hc : getNameCount db n + ps.length > ps.length ∨ n ∈ s
      · rw [if_pos hc]
        constructor
        · constructor
          · intro _
            rcases hc with hc | hc
            · exact Or.inr (by omega)
            · exact Or.inl hc
          · intro _
            exact ⟨⟨n, ps, getNameCount db n + ps.length, ! decide (n ∈ s)⟩,
              List.mem_cons_self _ _, rfl⟩
        · intro e he hen
          rcases List.mem_cons.mp he with he | he
          · subst he
            exact ⟨rfl, rfl⟩
          · exact absurd hen (hnone e he)
      · rw [if_neg hc]
        constructor
        · constructor
          · intro ⟨e, he, hen⟩
            exact absurd hen (hnone e he)
          · intro h
            exfalso
            apply hc
            rcases h with h | h
            · exact Or.inr h
            · exact Or.inl (by omega)
        · intro e he hen
          exact absurd hen (hnone e he)
    · -- the searched name sits in the tail groups
      have hn_in : n ∈ groupKeys rest :=
        List.mem_map.mpr ⟨(n, ps), htl, rfl⟩
      have hkn : k ≠ n := fun hh => hknotin (hh ▸ hn_in)
      have hnk : n ≠ k := fun hh => hkn hh.symm
      have hdb1 : getNameCount (addNameOccurrence db k qs.length) n
          = getNameCount db n := getNameCount_add_ne db n k qs.length hnk
      have hsins : n ∈ s.insert k ↔ n ∈ s := by
        rw [List.mem_insert_iff]
        exact ⟨fun h => h.elim (fun hh => absurd hh hnk) id, Or.inr⟩
      have spec := ih (s.insert k) (addNameOccurrence db k qs.length) hnd1 htl
      rw [hdb1, hsins] at spec
      simp only [processLoop]
      by_cases hc : getNameCount (addNameOccurrence db k qs.length) k > qs.length ∨ k ∈ s
      · rw [if_pos hc]
        constructor
        · rw [← spec.1]
          constructor
          · intro ⟨e, he, hen⟩
            rcases List.mem_cons.mp he with he | he
            · subst he
              exact absurd hen hkn
            · exact ⟨e, he, hen⟩
          · intro ⟨e, he, hen⟩
            exact ⟨e, List.mem_cons_of_mem _ he, hen⟩
        · intro e he hen
          rcases List.mem_cons.mp he with he | he
          · subst he
            exact absurd hen hkn
          · exact spec.2 e he hen
      · rw [if_neg hc]
        exact spec

/-- C1: per scan tick, after grouping by normalized name and updating the
durable store with this tick's position count, a name is classified as a
duplicate iff it was already in the session record before this tick's
increment OR its durable cumulative count (pre-tick count + this tick's
positions) exceeds the count contributed by this tick alone; each emitted
entry carries that durable cumulative count.  In the two-tick Alice/Bob
scenario, tick 1 yields no duplicates and tick 2 yields Alice with count 3. -/
theorem process_names_duplicate_iff :
    (∀ (st : CoreTracker) (l : List NameData) (n : String) (ps : List Pos),
      (n, ps) ∈ groupScan l →
        ((∃ e ∈ (process_names st l).1, e.name = n) ↔
          (n ∈ st.session ∨ getNameCount st.db n + ps.length > ps.length))
        ∧ ∀ e ∈ (process_names st l).1, e.name = n →
            e.count = getNameCount st.db n + ps.length ∧ e.positions = ps)
    ∧ (process_names ⟨[], []⟩
        [⟨"Alice", 10, 10, 40, 12, 90⟩, ⟨"Bob", 10, 40, 40, 12, 90⟩]).1 = []
    ∧ getNameCount (process_names ⟨[], []⟩
        [⟨"Alice", 10, 10, 40, 12, 90⟩, ⟨"Bob", 10, 40, 40, 12, 90⟩]).2.db "alice" = 1
    ∧ getNameCount (process_names ⟨[], []⟩
        [⟨"Alice", 10, 10, 40, 12, 90⟩, ⟨"Bob", 10, 40, 40, 12, 90⟩]).2.db "bob" = 1
    ∧ ((process_names
          (process_names ⟨[], []⟩
            [⟨"Alice", 10, 10, 40, 12, 90⟩, ⟨"Bob", 10, 40, 40, 12, 90⟩]).2
          [⟨"Alice", 10, 10, 40, 12, 90⟩, ⟨"Alice", 10, 40, 40, 12, 90⟩]).1.map
        fun e => (e.name, e.count)) = [("alice", 3)]
    ∧ getNameCount (process_names
          (process_names ⟨[], []⟩
            [⟨"Alice", 10, 10, 40, 12, 90⟩, ⟨"Bob", 10, 40, 40, 12, 90⟩]).2
          [⟨"Alice", 10, 10, 40, 12, 90⟩, ⟨"Alice", 10, 40, 40, 12, 90⟩]).2.db
        "alice" = 3 := by
  refine ⟨?_, by decide, by decide, by decide, by decide, by decide⟩
  intro st l n ps hmem
  have hl : l ≠ [] := by
    intro h
    subst h
    cases hmem
  have hpn : process_names st l
      = ((processLoop (groupScan l) st.session st.db).1,
        ⟨(processLoop (groupScan l) st.session st.db).2.1,
          (processLoop (groupScan l) st.session st.db).2.2⟩) := by
    simp [process_names, hl]
  have spec := processLoop_spec n ps (groupScan l) st.session st.db
    (nodup_groupKeys_groupScan l) hmem
  have hiff : (n ∈ st.session ∨ 0 < getNameCount st.db n) ↔
      (n ∈ st.session ∨ getNameCount st.db n + ps.length > ps.length) := by
    constructor
    · rintro (h | h)
      · exact Or.inl h
      · exact Or.inr (by omega)
    · rintro (h | h)
      · exact Or.inl h
      · exact Or.inr (by omega)
  rw [hpn]
  exact ⟨spec.1.trans hiff, spec.2⟩

/-- Witness for C1's general clause at a concrete tick and name. -/
theorem process_names_duplicate_iff_witness :
    (("alice", [(⟨1, 2, 3, 4, 5⟩ : Pos)]) ∈
        groupScan [⟨"Alice", 1, 2, 3, 4, 5⟩])
    ∧ (((∃ e ∈ (process_names ⟨["alice"], [("alice", 1)]⟩
            [⟨"Alice", 1, 2, 3, 4, 5⟩]).1, e.name = "alice") ↔
        ("alice" ∈ (⟨["alice"], [("alice", 1)]⟩ : CoreTracker).session ∨
          getNameCount (⟨["alice"], [("alice", 1)]⟩ : CoreTracker).db "alice" +
              [(⟨1, 2, 3, 4, 5⟩ : Pos)].length > [(⟨1, 2, 3, 4, 5⟩ : Pos)].length))
      ∧ ∀ e ∈ (process_names ⟨["alice"], [("alice", 1)]⟩
            [⟨"Alice", 1, 2, 3, 4, 5⟩]).1, e.name = "alice" →
          e.count = getNameCount (⟨["alice"], [("alice", 1)]⟩ : CoreTracker).db "alice" +
            [(⟨1, 2, 3, 4, 5⟩ : Pos)].length
          ∧ e.positions = [(⟨1, 2, 3, 4, 5⟩ : Pos)]) :=
  ⟨by decide,
    process_names_duplicate_iff.1 ⟨["alice"], [("alice", 1)]⟩
      [⟨"Alice", 1, 2, 3, 4, 5⟩] "alice" [⟨1, 2, 3, 4, 5⟩] (by decide)⟩

theorem alookup_sessionSet_self (sc : List (String × Nat)) (n : String) (v : Nat) :
    alookup n (sessionSet sc n v) = some v := by
  unfold sessionSet
  cases h : alookup n sc with
  | none =>
    show alookup n (sc ++ [(n, v)]) = some v
    rw [alookup_append_single n n v sc, h]
    simp [Option.orElse]
  | some c =>
    show alookup n (aupdate n (fun _ => v) sc) = some v
    rw [alookup_aupdate_self n (fun _ => v) sc, h]
    rfl

theorem alookup_sessionSet_ne (sc : List (String × Nat)) (m n : String) (v : Nat)
    (h : m ≠ n) : alookup m (sessionSet sc n v) = alookup m sc := by
  unfold sessionSet
  cases hn : alookup n sc with
  | none =>
    show alookup m (sc ++ [(n, v)]) = alookup m sc
    rw [alookup_append_single m n v sc]
    have hnm : (if n = m then some v else none) = (none : Option Nat) := by
      have : ¬ n = m := fun hh => h hh.symm
      simp [this]
    cases hm : alookup m sc <;> simp [Option.orElse, hnm]
  | some c =>
    show alookup m (aupdate n (fun _ => v) sc) = alookup m sc
    exact alookup_aupdate_ne m n (fun _ => v) h sc

theorem ledgerFold_inv :
    ∀ (rs : List NameData) (sc : List (String × Nat)) (db : Db)
      (boxes : List (Int × Int × Int × Int)),
      (∀ n, (alookup n sc).getD 0 ≤ getNameCount db n) →
      ∀ n,
        (alookup n (rs.foldl
          (fun (acc : List (String × Nat) × Db × List (Int × Int × Int × Int)) e =>
            let count := (alookup e.name acc.1).getD 0 + 1
            (sessionSet acc.1 e.name count,
              addNameOccurrence acc.2.1 e.name 1,
              if count > 1 then acc.2.2 ++ [(e.x, e.y, e.width, e.height)]
              else acc.2.2))
          (sc, db, boxes)).1).getD 0
        ≤ getNameCount (rs.foldl
          (fun (acc : List (String × Nat) × Db × List (Int × Int × Int × Int)) e =>
            let count := (alookup e.name acc.1).getD 0 + 1
            (sessionSet acc.1 e.name count,
              addNameOccurrence acc.2.1 e.name 1,
              if count > 1 then acc.2.2 ++ [(e.x, e.y, e.width, e.height)]
              else acc.2.2))
          (sc, db, boxes)).2.1 n
  | [], sc, db, boxes, hinv => hinv
  | e :: rest, sc, db, boxes, hinv => by
    apply ledgerFold_inv rest
    intro n
    by_cases h : n = e.name
    · subst h
      rw [alookup_sessionSet_self, getNameCount_add_self]
      have := hinv e.name
      simp only [Option.getD_some]
      omega
    · rw [alookup_sessionSet_ne _ _ _ _ h, getNameCount_add_ne _ _ _ _ h]
      exact hinv n

/-- C9: every ledger operation (processing a tick, `reset_session`,
`clear_all`) preserves the invariant that a name's session count never
exceeds its durable cumulative count. -/
theorem ledger_session_le_db (st : Ledger) (results : List NameData)
    (h : SessionLeDb st) :
    SessionLeDb (ledgerProcess st results)
    ∧ SessionLeDb (reset_session st)
    ∧ SessionLeDb (clear_all st) := by
  refine ⟨?_, ?_, ?_⟩
  · intro n
    exact ledgerFold_inv results st.sessionCounts st.db [] h n
  · intro n
    simp [reset_session, alookup]
  · intro n
    simp [clear_all, reset_session, alookup]

/-- Witness for C9 at a concrete ledger and tick. -/
theorem ledger_session_le_db_witness :
    SessionLeDb ⟨[], [("amy", 2)], []⟩
    ∧ (SessionLeDb (ledgerProcess ⟨[], [("amy", 2)], []⟩
          [⟨"amy", 0, 0, 0, 0, 0⟩, ⟨"amy", 0, 1, 0, 0, 0⟩])
      ∧ SessionLeDb (reset_session ⟨[], [("amy", 2)], []⟩)
      ∧ SessionLeDb (clear_all ⟨[], [("amy", 2)], []⟩)) :=
  have h : SessionLeDb ⟨[], [("amy", 2)], []⟩ := by
    intro n
    simp [alookup]
  ⟨h, ledger_session_le_db ⟨[], [("amy", 2)], []⟩
    [⟨"amy", 0, 0, 0, 0, 0⟩, ⟨"amy", 0, 1, 0, 0, 0⟩] h⟩

/-- C7: `reset_session` clears the session counts and emits an empty marker
set but leaves the durable store unchanged (statistics: session names 0,
database names/occurrences unchanged); `clear_all` performs `reset_session`
and additionally deletes all durable records, after which both session and
database counts are 0. -/
theorem reset_clear_distinction (st : Ledger) :
    (reset_session st).sessionCounts = []
    ∧ (reset_session st).markers = []
    ∧ (reset_session st).db = st.db
    ∧ (get_statistics (reset_session st)).session_names = 0
    ∧ (get_statistics (reset_session st)).database_names
        = (get_statistics st).database_names
    ∧ (get_statistics (reset_session st)).database_occurrences
        = (get_statistics st).database_occurrences
    ∧ clear_all st
        = ⟨(reset_session st).sessionCounts, dbClearAll, (reset_session st).markers⟩
    ∧ (get_statistics (clear_all st)).session_names = 0
    ∧ (get_statistics (clear_all st)).database_names = 0
    ∧ (get_statistics (clear_all st)).database_occurrences = 0 :=
  ⟨rfl, rfl, rfl, rfl, rfl, rfl, rfl, rfl, rfl, rfl⟩

theorem adjustList_down (mag : Int) :
    ∀ quads : List (Int × Int × Int × Int),
      adjustList (quads.map mkMarker) "down" mag
        = .ok (((quads.map fun q => (q.1, q.2.1 - mag, q.2.2.1, q.2.2.2)).filter
            fun q => decide (-50 < q.2.1 + q.2.2.2)).map mkMarker)
  | [] => rfl
  | q :: rest => by
    have ih := adjustList_down mag rest
    simp only [List.map_cons, adjustList, adjustOne, mkMarker, ih]
    by_cases h : (-50 : Int) < q.2.1 - mag + q.2.2.2
    · simp [h, List.filter_cons, mkMarker]
    · simp [h, List.filter_cons, mkMarker]

theorem adjustList_up (mag : Int) :
    ∀ quads : List (Int × Int × Int × Int),
      adjustList (quads.map mkMarker) "up" mag
        = .ok (((quads.map fun q => (q.1, q.2.1 + mag, q.2.2.1, q.2.2.2)).filter
            fun q => decide (-50 < q.2.1 + q.2.2.2)).map mkMarker)
  | [] => rfl
  | q :: rest => by
    have ih := adjustList_up mag rest
    simp only [List.map_cons, adjustList, adjustOne, mkMarker, ih]
    by_cases h : (-50 : Int) < q.2.1 + mag + q.2.2.2
    · simp [h, List.filter_cons, mkMarker]
    · simp [h, List.filter_cons, mkMarker]

/-- C3: `adjust_marker_positions` maps a `direction=down` scroll to
`y := y - magnitude` and `direction=up` to `y := y + magnitude` on every
marker (x, width, height unchanged), keeping exactly the adjusted markers
whose bottom edge `y + height` still passes the `> -50` tolerance test;
including the three concrete instances from the spec. -/
theorem adjust_scroll_projection :
    (∀ (quads : List (Int × Int × Int × Int)) (mag : Int) (conf : ℚ),
      adjust_marker_positions (quads.map mkMarker) ⟨"down", mag, conf⟩
        = .ok (((quads.map fun q => (q.1, q.2.1 - mag, q.2.2.1, q.2.2.2)).filter
            fun q => decide (-50 < q.2.1 + q.2.2.2)).map mkMarker)
      ∧ adjust_marker_positions (quads.map mkMarker) ⟨"up", mag, conf⟩
        = .ok (((quads.map fun q => (q.1, q.2.1 + mag, q.2.2.1, q.2.2.2)).filter
            fun q => decide (-50 < q.2.1 + q.2.2.2)).map mkMarker))
    ∧ adjust_marker_positions [mkMarker (10, 50, 20, 10)] ⟨"down", 20, 1⟩
        = .ok [mkMarker (10, 30, 20, 10)]
    ∧ adjust_marker_positions [mkMarker (10, 50, 20, 10)] ⟨"up", 15, 1⟩
        = .ok [mkMarker (10, 65, 20, 10)]
    ∧ adjust_marker_positions [mkMarker (0, 10, 20, 10)] ⟨"down", 200, 1⟩
        = .ok [] := by
  refine ⟨?_, ?_, ?_, ?_⟩
  · intro quads mag conf
    constructor
    · rcases quads with _ | ⟨q, rest⟩
      · rfl
      · show adjustList _ "down" mag = _
        exact adjustList_down mag (q :: rest)
    · rcases quads with _ | ⟨q, rest⟩
      · rfl
      · show adjustList _ "up" mag = _
        exact adjustList_up mag (q :: rest)
  · simp [adjust_marker_positions, adjustList, adjustOne, mkMarker]
  · simp [adjust_marker_positions, adjustList, adjustOne, mkMarker]
  · simp [adjust_marker_positions, adjustList, adjustOne, mkMarker]

/-- C4 (code bug): on the spec's own uniform-movement scenario (each matched
name moved down by exactly 20px, std-dev 0 < 20 and |mean| = 20 > threshold
10, so the claim — and the repository's test suite — expect a scroll event
`down/20`), `track_ocr_results` instead raises: it passes the `text/bbox`
records to `adjust_marker_positions`, which reads the missing `y` key
(KeyError).  The inconsistent +20/−20 scenario returns no event, as claimed. -/
theorem track_ocr_results_keyerror :
    ratVar [20, 20] < 400
    ∧ |ratMean [20, 20]| > 10
    ∧ track_ocr_results
        [mkOcr "John" [10, 20, 30, 10], mkOcr "Jane" [40, 50, 25, 12]]
        [mkOcr "John" [10, 40, 30, 10], mkOcr "Jane" [40, 70, 25, 12]]
        10 = .error ()
    ∧ track_ocr_results
        [mkOcr "John" [10, 20, 30, 10], mkOcr "Jane" [40, 50, 25, 12]]
        [mkOcr "John" [10, 40, 30, 10], mkOcr "Jane" [40, 30, 25, 12]]
        10 = .ok ([mkOcr "John" [10, 40, 30, 10], mkOcr "Jane" [40, 30, 25, 12]],
          none, [mkOcr "John" [10, 40, 30, 10], mkOcr "Jane" [40, 30, 25, 12]]) := by
  have h1 : ratMean [20, 20] = 20 := by norm_num [ratMean]
  have h2 : ratVar [20, 20] = 0 := by norm_num [ratVar, ratMean]
  have h3 : ratVar [20, -20] = 400 := by norm_num [ratVar, ratMean]
  have h4 : |ratMean [20, 20]| = 20 := by rw [h1]; norm_num
  refine ⟨by rw [h2]; norm_num, by rw [h4]; norm_num, ?_, ?_⟩
  · simp [track_ocr_results, buildTextPairs, dictKeys, dedupKeysAux,
      dictLookupLast, yDiffsList, yDiffFor, bboxY, adjust_marker_positions,
      adjustList, adjustOne, mkOcr, h1, h2]
    norm_num
  · simp [track_ocr_results, buildTextPairs, dictKeys, dedupKeysAux,
      dictLookupLast, yDiffsList, yDiffFor, bboxY, mkOcr, h3]

/-- C5: with no stored fingerprint the call reports changed (bootstrap), and
whenever the fingerprint computation succeeds — whatever the verdict — the
stored last fingerprint becomes the current frame's fingerprint. -/
theorem has_changed_bootstrap_and_baseline :
    ∀ (c : Fingerprint) (lh : Option Fingerprint) (t : Nat),
      (pyHasChanged none (.ok c) t).1 = true
      ∧ (pyHasChanged lh (.ok c) t).2 = some c := by
  intro c lh t
  cases lh <;> exact ⟨rfl, rfl⟩

/-- C6: when fingerprinting raises, `_has_changed` returns true (fail open)
and resets the stored baseline to empty, so the next successful call takes
the unconditional bootstrap branch. -/
theorem has_changed_fail_open :
    ∀ (lh : Option Fingerprint) (t : Nat) (c : Fingerprint) (t' : Nat),
      pyHasChanged lh (.error ()) t = (true, none)
      ∧ (pyHasChanged none (.ok c) t').1 = true := by
  intro lh t c t'
  cases lh <;> exact ⟨rfl, rfl⟩

/-- C2 counterexample: a tick whose frame is judged unchanged (stored hash
equals the current hash, distance 0 ≤ threshold 5) on which
`capture_and_process` performs no scroll detection at all — the unchanged
short-circuit returns before any further work, and no branch of
`capture_and_process` contains a scroll-detection call. -/
theorem capture_unchanged_no_scroll_counterexample :
    (pyHasChanged (some [true, false]) (.ok [true, false]) 5).1 = false
    ∧ (capture_and_process
        ⟨some (0, 0, 100, 100), some [true, false], 5, ⟨[], [], []⟩⟩
        ⟨some 0, .ok [true, false], [⟨"Alice", 0, 0, 0, 0, 0⟩]⟩).2.2.scrollDetectRan
        = false
    ∧ (capture_and_process
        ⟨some (0, 0, 100, 100), some [true, false], 5, ⟨[], [], []⟩⟩
        ⟨some 0, .ok [true, false], [⟨"Alice", 0, 0, 0, 0, 0⟩]⟩).2.2.ocrRan
        = false := by
  refine ⟨by decide, ?_, ?_⟩ <;>
    simp [capture_and_process, grabRegion, pyHasChanged, hashDiff]

/-- C2 amended: in the core orchestrator `capture_and_process` the
unchanged-frame short-circuit skips OCR and everything after it, and no tick
— changed or unchanged — performs scroll detection there; scroll detection
on unchanged frames happens only in the GUI scan worker, which runs
`detect_scroll` before the change gate on every captured frame, so there the
unchanged verdict skips only the OCR call. -/
theorem unchanged_tick_scroll_handling :
    (∀ (st : CapState) (env : TickEnv),
      (capture_and_process st env).2.2.scrollDetectRan = false
      ∧ ((pyHasChanged st.lastHash env.phash st.hashThreshold).1 = false →
          (capture_and_process st env).2.2.ocrRan = false))
    ∧ (∀ env : WorkerEnv, env.shot.isSome →
        (scanWorkerRun env).scrollDetectRan = true
        ∧ (env.changed = false → (scanWorkerRun env).ocrRan = false)) := by
  constructor
  · intro st env
    rcases hr : st.region with _ | r
    · simp [capture_and_process, hr]
    · rcases hg : grabRegion r env.shot with _ | img
      · simp [capture_and_process, hr, hg]
      · rcases hv : (pyHasChanged st.lastHash env.phash st.hashThreshold).1 with _ | _
        · simp [capture_and_process, hr, hg, hv]
        · constructor
          · by_cases ht : env.ocrTexts = [] <;>
              simp [capture_and_process, hr, hg, hv, ht]
          · intro hfalse
            exact Bool.noConfusion hfalse
  · intro env hshot
    rcases hs : env.shot with _ | img
    · rw [hs] at hshot
      cases hshot
    · rcases hc : env.changed with _ | _ <;>
        simp [scanWorkerRun, hs, hc]

/-- Witness for C2's amended theorem at a concrete tick: an unchanged frame
in both orchestrators. -/
theorem unchanged_tick_scroll_handling_witness :
    ((capture_and_process
        ⟨some (0, 0, 100, 100), some [true], 5, ⟨[], [], []⟩⟩
        ⟨some 0, .ok [true], []⟩).2.2.scrollDetectRan = false
      ∧ ((pyHasChanged (some [true]) (.ok [true]) 5).1 = false →
          (capture_and_process
            ⟨some (0, 0, 100, 100), some [true], 5, ⟨[], [], []⟩⟩
            ⟨some 0, .ok [true], []⟩).2.2.ocrRan = false))
    ∧ ((some 0 : Option Img).isSome
      ∧ ((scanWorkerRun ⟨some 0, none, false, []⟩).scrollDetectRan = true
        ∧ (false = false → (scanWorkerRun ⟨some 0, none, false, []⟩).ocrRan = false))) :=
  ⟨unchanged_tick_scroll_handling.1
      ⟨some (0, 0, 100, 100), some [true], 5, ⟨[], [], []⟩⟩
      ⟨some 0, .ok [true], []⟩,
    by decide,
    unchanged_tick_scroll_handling.2 ⟨some 0, none, false, []⟩ (by decide)⟩

theorem pyLowerChar_allowed (c : Char) (h : allowedChar c = true) :
    pyLowerChar c = c := by
  unfold allowedChar at h
  rcases Bool.or_eq_true_iff.mp h with h | h
  · rcases Bool.or_eq_true_iff.mp h with h | h
    · rw [Bool.and_eq_true] at h
      obtain ⟨h1, h2⟩ := h
      have h1 := of_decide_eq_true h1
      have h2 := of_decide_eq_true h2
      unfold pyLowerChar
      rw [if_neg (by omega)]
    · have h := of_decide_eq_true h
      subst h
      decide
  · have h := of_decide_eq_true h
    subst h
    decide

theorem replaceChar_allowed (c : Char) (h : allowedChar c = true) :
    replaceChar c = c := by
  unfold allowedChar at h
  rcases Bool.or_eq_true_iff.mp h with h | h
  · rcases Bool.or_eq_true_iff.mp h with h | h
    · rw [Bool.and_eq_true] at h
      obtain ⟨h1, h2⟩ := h
      have h1 := of_decide_eq_true h1
      have h2 := of_decide_eq_true h2
      have e1 : ¬ c = '|' := fun hh => by
        subst hh
        exact absurd (And.intro h1 h2) (by decide)
      have e2 : ¬ c = '0' := fun hh => by
        subst hh
        exact absurd (And.intro h1 h2) (by decide)
      have e3 : ¬ c = '1' := fun hh => by
        subst hh
        exact absurd (And.intro h1 h2) (by decide)
      simp [replaceChar, e1, e2, e3]
    · have h := of_decide_eq_true h
      subst h
      decide
  · have h := of_decide_eq_true h
    subst h
    decide

theorem isPySpace_allowed_not_space (c : Char) (h : allowedChar c = true)
    (hs : ¬ c = ' ') : isPySpace c = false := by
  unfold allowedChar at h
  rcases Bool.or_eq_true_iff.mp h with h | h
  · rcases Bool.or_eq_true_iff.mp h with h | h
    · rw [Bool.and_eq_true] at h
      obtain ⟨h1, h2⟩ := h
      have h1 := of_decide_eq_true h1
      have h2 := of_decide_eq_true h2
      have e1 : ¬ c = ' ' := hs
      have e2 : ¬ c = '\t' := fun hh => by
        subst hh
        exact absurd (And.intro h1 h2) (by decide)
      have e3 : ¬ c = '\n' := fun hh => by
        subst hh
        exact absurd (And.intro h1 h2) (by decide)
      have e4 : ¬ c = '\x0d' := fun hh => by
        subst hh
        exact absurd (And.intro h1 h2) (by decide)
      have e5 : ¬ c = '\x0b' := fun hh => by
        subst hh
        exact absurd (And.intro h1 h2) (by decide)
      have e6 : ¬ c = '\x0c' := fun hh => by
        subst hh
        exact absurd (And.intro h1 h2) (by decide)
      simp [isPySpace, e1, e2, e3, e4, e5, e6]
    · exact absurd (of_decide_eq_true h) hs
  · have h := of_decide_eq_true h
    subst h
    decide

theorem mem_dropWhile (p : Char → Bool) (c : Char) :
    ∀ l : List Char, c ∈ l.dropWhile p → c ∈ l
  | [], h => h
  | a :: l, h => by
    rw [List.dropWhile_cons] at h
    by_cases ha : p a = true
    · rw [if_pos ha] at h
      exact List.mem_cons_of_mem a (mem_dropWhile p c l h)
    · rw [if_neg ha] at h
      exact h

theorem mem_pyStrip (c : Char) (l : List Char) (h : c ∈ pyStrip l) : c ∈ l := by
  unfold pyStrip at h
  rw [List.mem_reverse] at h
  have h := mem_dropWhile _ _ _ h
  rw [List.mem_reverse] at h
  exact mem_dropWhile _ _ _ h

/-- Words produced by `split()`: nonempty, whitespace-free, and drawn from
the input (or the pending accumulator). -/
theorem pySplitAux_words :
    ∀ (l acc : List Char), (∀ c ∈ acc, isPySpace c = false) →
      ∀ w ∈ pySplitAux l acc,
        w ≠ [] ∧ ∀ c ∈ w, (c ∈ l ∨ c ∈ acc) ∧ isPySpace c = false
  | [], acc, hacc => by
    intro w hw
    unfold pySplitAux at hw
    by_cases he : acc.isEmpty
    · rw [if_pos he] at hw
      cases hw
    · rw [if_neg he] at hw
      rcases List.mem_singleton.mp hw with rfl
      refine ⟨?_, ?_⟩
      · intro hrev
        exact he (by simp [List.isEmpty_iff, ← List.reverse_eq_nil_iff, hrev])
      · intro c hc
        rw [List.mem_reverse] at hc
        exact ⟨Or.inr hc, hacc c hc⟩
  | a :: rest, acc, hacc => by
    intro w hw
    unfold pySplitAux at hw
    by_cases ha : isPySpace a = true
    · rw [if_pos ha] at hw
      by_cases he : acc.isEmpty
      · rw [if_pos he] at hw
        have := pySplitAux_words rest [] (by intro c hc; cases hc) w hw
        refine ⟨this.1, ?_⟩
        intro c hc
        have hcc := this.2 c hc
        exact ⟨hcc.1.elim (fun h => Or.inl (List.mem_cons_of_mem a h))
          (fun h => by cases h), hcc.2⟩
      · rw [if_neg he] at hw
        rcases List.mem_cons.mp hw with rfl | hw
        · refine ⟨?_, ?_⟩
          · intro hrev
            exact he (by simp [List.isEmpty_iff, ← List.reverse_eq_nil_iff, hrev])
          · intro c hc
            rw [List.mem_reverse] at hc
            exact ⟨Or.inr hc, hacc c hc⟩
        · have := pySplitAux_words rest [] (by intro c hc; cases hc) w hw
          refine ⟨this.1, ?_⟩
          intro c hc
          have hcc := this.2 c hc
          exact ⟨hcc.1.elim (fun h => Or.inl (List.mem_cons_of_mem a h))
            (fun h => by cases h), hcc.2⟩
    · rw [if_neg ha] at hw
      have hacc2 : ∀ c ∈ a :: acc, isPySpace c = false := by
        intro c hc
        rcases List.mem_cons.mp hc with rfl | hc
        · exact Bool.not_eq_true _ ▸ ha
        · exact hacc c hc
      have := pySplitAux_words rest (a :: acc) hacc2 w hw
      refine ⟨this.1, ?_⟩
      intro c hc
      have hcc := this.2 c hc
      refine ⟨?_, hcc.2⟩
      rcases hcc.1 with h | h
      · exact Or.inl (List.mem_cons_of_mem a h)
      · rcases List.mem_cons.mp h with rfl | h
        · exact Or.inl (List.mem_cons_self _ _)
        · exact Or.inr h

theorem pySplitAux_nil (acc : List Char) :
    pySplitAux [] acc = if acc.isEmpty then [] else [acc.reverse] := rfl

theorem pySplitAux_cons_nonspace (a : Char) (t acc : List Char)
    (ha : isPySpace a = false) :
    pySplitAux (a :: t) acc = pySplitAux t (a :: acc) := by
  simp [pySplitAux, ha]

theorem pySplitAux_cons_space (a : Char) (t acc : List Char)
    (ha : isPySpace a = true) :
    pySplitAux (a :: t) acc
      = if acc.isEmpty then pySplitAux t [] else acc.reverse :: pySplitAux t [] := by
  simp [pySplitAux, ha]

/-- Consuming a whitespace-free chunk just extends the accumulator. -/
theorem pySplitAux_append_word :
    ∀ (w : List Char), (∀ c ∈ w, isPySpace c = false) →
      ∀ (s acc : List Char), pySplitAux (w ++ s) acc = pySplitAux s (w.reverse ++ acc)
  | [], _, s, acc => by simp
  | a :: w, hw, s, acc => by
    have ha : isPySpace a = false := hw a (List.mem_cons_self _ _)
    have hw2 : ∀ c ∈ w, isPySpace c = false :=
      fun c hc => hw c (List.mem_cons_of_mem a hc)
    show pySplitAux (a :: (w ++ s)) acc = _
    rw [pySplitAux_cons_nonspace a _ _ ha,
      pySplitAux_append_word w hw2 s (a :: acc)]
    simp

/-- Splitting the space-joined list of good words recovers the words. -/
theorem pySplit_joinSpace :
    ∀ ws : List (List Char), (∀ w ∈ ws, goodWord w) →
      pySplit (joinSpace ws) = ws
  | [], _ => rfl
  | [w], hws => by
    obtain ⟨hne, hch⟩ := hws w (List.mem_singleton.mpr rfl)
    show pySplitAux (joinSpace [w]) [] = [w]
    have hjw : joinSpace [w] = w ++ [] := by simp [joinSpace]
    rw [hjw, pySplitAux_append_word w (fun c hc => (hch c hc).2) [] [],
      pySplitAux_nil]
    rw [if_neg (by simp [hne])]
    simp
  | w :: w' :: ws, hws => by
    obtain ⟨hne, hch⟩ := hws w (List.mem_cons_self _ _)
    have hws2 : ∀ u ∈ w' :: ws, goodWord u :=
      fun u hu => hws u (List.mem_cons_of_mem w hu)
    show pySplitAux (joinSpace (w :: w' :: ws)) [] = _
    have hj : joinSpace (w :: w' :: ws) = w ++ (' ' :: joinSpace (w' :: ws)) := rfl
    rw [hj, pySplitAux_append_word w (fun c hc => (hch c hc).2) _ [],
      pySplitAux_cons_space ' ' _ _ (by decide)]
    rw [if_neg (by simp [hne])]
    rw [List.append_nil, List.reverse_reverse]
    exact congrArg (w :: ·) (pySplit_joinSpace (w' :: ws) hws2)

/-- Appending one more word to a nonempty word list. -/
theorem joinSpace_append_single :
    ∀ (ws : List (List Char)) (w : List Char), ws ≠ [] →
      joinSpace (ws ++ [w]) = joinSpace ws ++ ' ' :: w
  | [], _, h => absurd rfl h
  | [a], w, _ => by simp [joinSpace]
  | a :: b :: ws, w, _ => by
    show joinSpace (a :: (b :: ws ++ [w])) = _
    have hb : (b :: ws) ++ [w] = b :: (ws ++ [w]) := rfl
    calc joinSpace (a :: (b :: ws ++ [w]))
        = a ++ ' ' :: joinSpace (b :: ws ++ [w]) := by
          rw [hb]
          rfl
      _ = a ++ ' ' :: (joinSpace (b :: ws) ++ ' ' :: w) := by
          rw [joinSpace_append_single (b :: ws) w (by simp)]
      _ = (a ++ ' ' :: joinSpace (b :: ws)) ++ ' ' :: w := by simp
      _ = joinSpace (a :: b :: ws) ++ ' ' :: w := rfl

/-- Reversing a space-join reverses the words and each word. -/
theorem reverse_joinSpace :
    ∀ ws : List (List Char),
      (joinSpace ws).reverse = joinSpace ((ws.map List.reverse).reverse)
  | [] => rfl
  | [w] => by simp [joinSpace]
  | w :: w' :: ws => by
    have hne : ((w' :: ws).map List.reverse).reverse ≠ [] := by simp
    calc (joinSpace (w :: w' :: ws)).reverse
        = (w ++ ' ' :: joinSpace (w' :: ws)).reverse := rfl
      _ = (joinSpace (w' :: ws)).reverse ++ ' ' :: w.reverse := by simp
      _ = joinSpace (((w' :: ws).map List.reverse).reverse) ++ ' ' :: w.reverse := by
          rw [reverse_joinSpace (w' :: ws)]
      _ = joinSpace (((w' :: ws).map List.reverse).reverse ++ [w.reverse]) := by
          rw [joinSpace_append_single _ _ hne]
      _ = joinSpace (((w :: w' :: ws).map List.reverse).reverse) := by simp

/-- Every character of a join of good words is in the allowed alphabet. -/
theorem joinSpace_chars :
    ∀ ws : List (List Char), (∀ w ∈ ws, goodWord w) →
      ∀ c ∈ joinSpace ws, allowedChar c = true
  | [], _, c, hc => by cases hc
  | [w], hws, c, hc => ((hws w (List.mem_singleton.mpr rfl)).2 c hc).1
  | w :: w' :: ws, hws, c, hc => by
    have hj : joinSpace (w :: w' :: ws) = w ++ ' ' :: joinSpace (w' :: ws) := rfl
    rw [hj, List.mem_append] at hc
    rcases hc with hc | hc
    · exact ((hws w (List.mem_cons_self _ _)).2 c hc).1
    · rcases List.mem_cons.mp hc with rfl | hc
      · decide
      · exact joinSpace_chars (w' :: ws)
          (fun u hu => hws u (List.mem_cons_of_mem w hu)) c hc

/-- A join of good words is empty or starts with a non-whitespace character. -/
theorem joinSpace_head :
    ∀ ws : List (List Char), (∀ w ∈ ws, goodWord w) →
      joinSpace ws = [] ∨ ∃ c t, joinSpace ws = c :: t ∧ isPySpace c = false
  | [], _ => Or.inl rfl
  | [w], hws => by
    obtain ⟨hne, hch⟩ := hws w (List.mem_singleton.mpr rfl)
    rcases w with _ | ⟨c, t⟩
    · exact absurd rfl hne
    · exact Or.inr ⟨c, t, rfl, (hch c (List.mem_cons_self _ _)).2⟩
  | w :: w' :: ws, hws => by
    obtain ⟨hne, hch⟩ := hws w (List.mem_cons_self _ _)
    rcases w with _ | ⟨c, t⟩
    · exact absurd rfl hne
    · exact Or.inr ⟨c, t ++ ' ' :: joinSpace (w' :: ws), rfl,
        (hch c (List.mem_cons_self _ _)).2⟩

theorem dropWhile_of_head (l : List Char)
    (h : l = [] ∨ ∃ c t, l = c :: t ∧ isPySpace c = false) :
    l.dropWhile isPySpace = l := by
  rcases h with rfl | ⟨c, t, rfl, hc⟩
  · rfl
  · rw [List.dropWhile_cons, if_neg (by simp [hc])]

theorem goodWords_rev (ws : List (List Char)) (h : ∀ w ∈ ws, goodWord w) :
    ∀ w ∈ (ws.map List.reverse).reverse, goodWord w := by
  intro w hw
  rw [List.mem_reverse] at hw
  obtain ⟨u, hu, rfl⟩ := List.mem_map.mp hw
  obtain ⟨hne, hch⟩ := h u hu
  exact ⟨by simp [hne], fun c hc => hch c (List.mem_reverse.mp hc)⟩

/-- `strip()` leaves a join of good words unchanged. -/
theorem pyStrip_joinSpace (ws : List (List Char)) (h : ∀ w ∈ ws, goodWord w) :
    pyStrip (joinSpace ws) = joinSpace ws := by
  unfold pyStrip
  rw [dropWhile_of_head _ (joinSpace_head ws h)]
  rw [reverse_joinSpace ws]
  rw [dropWhile_of_head _ (joinSpace_head _ (goodWords_rev ws h))]
  rw [← reverse_joinSpace ws, List.reverse_reverse]

theorem map_id_of_mem (f : Char → Char) :
    ∀ l : List Char, (∀ c ∈ l, f c = c) → l.map f = l
  | [], _ => rfl
  | c :: l, h => by
    rw [List.map_cons, h c (List.mem_cons_self _ _),
      map_id_of_mem f l (fun d hd => h d (List.mem_cons_of_mem c hd))]

theorem filter_id_of_mem (p : Char → Bool) :
    ∀ l : List Char, (∀ c ∈ l, p c = true) → l.filter p = l
  | [], _ => rfl
  | c :: l, h => by
    rw [List.filter_cons, if_pos (h c (List.mem_cons_self _ _)),
      filter_id_of_mem p l (fun d hd => h d (List.mem_cons_of_mem c hd))]

/-- A join of good words is a fixpoint of the whole normalization pipeline. -/
theorem normalizeChars_joinSpace (ws : List (List Char))
    (h : ∀ w ∈ ws, goodWord w) :
    normalizeChars (joinSpace ws) = joinSpace ws := by
  unfold normalizeChars
  rw [map_id_of_mem pyLowerChar _
    (fun c hc => pyLowerChar_allowed c (joinSpace_chars ws h c hc))]
  rw [pyStrip_joinSpace ws h]
  rw [map_id_of_mem replaceChar _
    (fun c hc => replaceChar_allowed c (joinSpace_chars ws h c hc))]
  rw [filter_id_of_mem allowedChar _ (joinSpace_chars ws h)]
  exact congrArg joinSpace (pySplit_joinSpace ws h)

/-- Every normalization result is a join of good words. -/
theorem normalizeChars_decomp (l : List Char) :
    ∃ ws, (∀ w ∈ ws, goodWord w) ∧ normalizeChars l = joinSpace ws := by
  refine ⟨pySplit (((pyStrip (l.map pyLowerChar)).map replaceChar).filter allowedChar),
    ?_, rfl⟩
  intro w hw
  have hwords := pySplitAux_words
    (((pyStrip (l.map pyLowerChar)).map replaceChar).filter allowedChar) []
    (by intro c hc; cases hc) w hw
  refine ⟨hwords.1, ?_⟩
  intro c hc
  have hcc := hwords.2 c hc
  rcases hcc.1 with hmem | hmem
  · exact ⟨List.of_mem_filter hmem, hcc.2⟩
  · cases hmem

/-- C8: name normalization is idempotent. -/
theorem normalize_name_idempotent (s : String) :
    normalize_name (normalize_name s) = normalize_name s := by
  obtain ⟨ws, hgood, heq⟩ := normalizeChars_decomp s.data
  have h0 : normalize_name (normalize_name s)
      = ⟨normalizeChars (normalizeChars s.data)⟩ := rfl
  rw [h0, heq, normalizeChars_joinSpace ws hgood, ← heq]
  rfl

theorem pySplitAux_all_space :
    ∀ l : List Char, (∀ c ∈ l, isPySpace c = true) → pySplitAux l [] = []
  | [], _ => rfl
  | c :: rest, h => by
    rw [pySplitAux_cons_space c rest [] (h c (List.mem_cons_self _ _))]
    exact pySplitAux_all_space rest (fun d hd => h d (List.mem_cons_of_mem c hd))

/-- C10 counterexample: `"-"` contains no letters, pipes, zeros or ones,
yet it normalizes to `"-"`, not to the empty string — hyphens survive
normalization. -/
theorem normalize_hyphen_counterexample :
    normalize_name "-" = "-"
    ∧ normalize_name "-" ≠ ""
    ∧ ∀ c ∈ ("-" : String).data,
        ¬((65 ≤ c.toNat ∧ c.toNat ≤ 90) ∨ (97 ≤ c.toNat ∧ c.toNat ≤ 122)
          ∨ c = '|' ∨ c = '0' ∨ c = '1') := by
  refine ⟨by decide, by decide, by decide⟩

/-- C10 amended: a detection whose text has no letters (either case), no
pipes, zeros, ones and no hyphens normalizes to the empty string; all such
detections share the single identity key `""` (one grouped entity), so a
letterless detection in a later tick is classified as a duplicate of the
first. -/
theorem normalize_letterless_empty :
    (∀ s : String,
      (∀ c ∈ s.data,
        ¬((65 ≤ c.toNat ∧ c.toNat ≤ 90) ∨ (97 ≤ c.toNat ∧ c.toNat ≤ 122)
          ∨ c = '|' ∨ c = '0' ∨ c = '1' ∨ c = '-')) →
      normalize_name s = "")
    ∧ groupScan [⟨"###", 0, 0, 5, 5, 50⟩, ⟨"42", 10, 10, 5, 5, 50⟩]
        = [("", [⟨0, 0, 5, 5, 50⟩, ⟨10, 10, 5, 5, 50⟩])]
    ∧ (process_names ⟨[], []⟩ [⟨"###", 0, 0, 5, 5, 50⟩]).1 = []
    ∧ ((process_names (process_names ⟨[], []⟩ [⟨"###", 0, 0, 5, 5, 50⟩]).2
          [⟨"42", 10, 10, 5, 5, 50⟩]).1.map fun e => (e.name, e.count))
        = [("", 2)] := by
  refine ⟨?_, by decide, by decide, by decide⟩
  intro s hs
  have hspace : ∀ c ∈ ((pyStrip (s.data.map pyLowerChar)).map replaceChar).filter
      allowedChar, isPySpace c = true := by
    intro c hc
    have hallow : allowedChar c = true := List.of_mem_filter hc
    have hc2 := List.mem_of_mem_filter hc
    obtain ⟨c2, hc2mem, hc2eq⟩ := List.mem_map.mp hc2
    have hc2mem := mem_pyStrip c2 _ hc2mem
    obtain ⟨c0, hc0mem, hc0eq⟩ := List.mem_map.mp hc2mem
    have hc0 := hs c0 hc0mem
    have hlower : pyLowerChar c0 = c0 := by
      unfold pyLowerChar
      rw [if_neg (fun hu => hc0 (Or.inl hu))]
    have hrepl : replaceChar c0 = c0 := by
      have e1 : ¬ c0 = '|' := fun hh => hc0 (Or.inr (Or.inr (Or.inl hh)))
      have e2 : ¬ c0 = '0' := fun hh => hc0 (Or.inr (Or.inr (Or.inr (Or.inl hh))))
      have e3 : ¬ c0 = '1' := fun hh =>
        hc0 (Or.inr (Or.inr (Or.inr (Or.inr (Or.inl hh)))))
      simp [replaceChar, e1, e2, e3]
    have hcc0 : c = c0 := by
      rw [← hc2eq, ← hc0eq, hlower, hrepl]
    subst hcc0
    unfold allowedChar at hallow
    rcases Bool.or_eq_true_iff.mp hallow with h | h
    · rcases Bool.or_eq_true_iff.mp h with h | h
      · rw [Bool.and_eq_true] at h
        exact absurd (Or.inr (Or.inl ⟨of_decide_eq_true h.1, of_decide_eq_true h.2⟩))
          hc0
      · have h := of_decide_eq_true h
        subst h
        decide
    · have h := of_decide_eq_true h
      exact absurd (Or.inr (Or.inr (Or.inr (Or.inr (Or.inr h))))) hc0
  have hsplit : pySplit (((pyStrip (s.data.map pyLowerChar)).map replaceChar).filter
      allowedChar) = [] := pySplitAux_all_space _ hspace
  show (⟨normalizeChars s.data⟩ : String) = ""
  unfold normalizeChars
  rw [hsplit]
  rfl

/-- Witness for C10's amended general clause at the concrete text `"###"`. -/
theorem normalize_letterless_empty_witness :
    (∀ c ∈ ("###" : String).data,
      ¬((65 ≤ c.toNat ∧ c.toNat ≤ 90) ∨ (97 ≤ c.toNat ∧ c.toNat ≤ 122)
        ∨ c = '|' ∨ c = '0' ∨ c = '1' ∨ c = '-'))
    ∧ normalize_name "###" = "" :=
  ⟨by decide, normalize_letterless_empty.1 "###" (by decide)⟩

end DNH

